import Mathlib

/-!
Verification development for the brotli stream encoder wrapper
(src/src/stream/brotli/encoder.rs) and the generic streaming adapter it
composes with.  The wrapper file itself is embedded faithfully below
(CompressParams, the codec configuration, the generic encoder composition,
and the accessor/poll delegation).  The generic stream adapter
(crate::stream::generic::Encoder) and the codec capability
(crate::codec::BrotliEncoder) are not part of the given sources, so their
behaviour is modelled from the specification: its state machine
(ReadingInput / Encoding / Flushing / Done), its transition rules, and the
codec capability contract (encode / finish, fatal errors).
-/

/-- A byte chunk: a contiguous, possibly empty, run of bytes. -/
abbrev Chunk := List Nat

/-- Result of one pull on the adapter: an output chunk, an error, or the
end-of-sequence marker. -/
inductive PollResult (E : Type) where
  | chunk (c : Chunk)
  | error (e : E)
  | endOfStream
deriving DecidableEq, Repr

/-- Observable interactions of the adapter with its collaborators: pulling
the inner sequence, invoking the codec encode operation, invoking the codec
finish operation. -/
inductive Event where
  | pullInner
  | encodeCall
  | finishCall
deriving DecidableEq, Repr

/-- Modelled from the spec: the codec capability contract (spec section 4.1),
whose implementation (crate::codec::BrotliEncoder internals) is not among the
given sources.  A codec instance with state type sigma accepts an input chunk
and produces output chunks together with an updated state, or fails fatally;
finish flushes all remaining buffered state into trailing output chunks. -/
structure Codec (σ E : Type) where
  encode : σ → Chunk → Except E (σ × List Chunk)
  finish : σ → Except E (List Chunk)

/-- Modelled from the spec: the state machine of the generic stream adapter
(spec section 4.2), whose implementation (crate::stream::generic::Encoder)
is not among the given sources.  The inner asynchronous sequence is embedded
as the list of results it has yet to yield, end-of-sequence when exhausted.
Encoding carries the output chunks already produced by the codec for the
current input but not yet delivered (delivered one per pull); Flushing
carries the trailing finish output not yet delivered. -/
inductive AdapterState (E σ : Type) where
  | reading (inner : List (Except E Chunk)) (st : σ)
  | encoding (inner : List (Except E Chunk)) (st : σ) (pending : List Chunk)
  | flushing (pending : List Chunk)
  | done

/-- Modelled from the spec: the ReadingInput behaviour of the generic adapter
(spec section 4.2).  Pull the inner sequence: an inner error is propagated
and the adapter becomes Done; a chunk is fed to the codec, whose non-empty
output chunks are yielded one per pull (first now, rest kept pending in
Encoding); if the codec produced no output the adapter pulls the inner
sequence again within the same poll; at inner end-of-sequence the codec
finish operation is invoked exactly once and its trailing output is drained
across the following pulls (Flushing), after which the adapter is Done.
Returns the collaborator events of this poll, the successor state, and the
result yielded to the caller. -/
def readLoop (c : Codec σ E) :
    List (Except E Chunk) → σ → List Event × AdapterState E σ × PollResult E
  | [], st =>
    match c.finish st with
    | .error e => ([.pullInner, .finishCall], .done, .error e)
    | .ok outs =>
      match outs.filter (fun o => !o.isEmpty) with
      | [] => ([.pullInner, .finishCall], .done, .endOfStream)
      | o :: rest => ([.pullInner, .finishCall], .flushing rest, .chunk o)
  | .error e :: _, _ => ([.pullInner], .done, .error e)
  | .ok ch :: rest, st =>
    match c.encode st ch with
    | .error e => ([.pullInner, .encodeCall], .done, .error e)
    | .ok (st', outs) =>
      match outs.filter (fun o => !o.isEmpty) with
      | [] =>
        match readLoop c rest st' with
        | (evs, s, r) => (.pullInner :: .encodeCall :: evs, s, r)
      | o :: restOut => ([.pullInner, .encodeCall], .encoding rest st' restOut, .chunk o)

/-- Modelled from the spec: one pull (poll_next) of the generic stream
adapter (spec section 4.2).  Done always yields end-of-sequence again;
Flushing delivers one pending trailing chunk per pull, then end-of-sequence
on the following pull; Encoding delivers one pending output chunk per pull
and returns to reading the inner sequence when none remain. -/
def pollNextEv (c : Codec σ E) :
    AdapterState E σ → List Event × AdapterState E σ × PollResult E
  | .done => ([], .done, .endOfStream)
  | .flushing [] => ([], .done, .endOfStream)
  | .flushing (o :: rest) => ([], .flushing rest, .chunk o)
  | .encoding inner st [] => readLoop c inner st
  | .encoding inner st (o :: rest) => ([], .encoding inner st rest, .chunk o)
  | .reading inner st => readLoop c inner st

/-- The results yielded by the first n pulls of the adapter from a state. -/
def pullResults (c : Codec σ E) : Nat → AdapterState E σ → List (PollResult E)
  | 0, _ => []
  | n + 1, s =>
    match pollNextEv c s with
    | (_, s', r) => r :: pullResults c n s'

/-- The collaborator events of the first n pulls of the adapter. -/
def pullEvents (c : Codec σ E) : Nat → AdapterState E σ → List Event
  | 0, _ => []
  | n + 1, s =>
    match pollNextEv c s with
    | (evs, s', _) => evs ++ pullEvents c n s'

/-- All output chunks produced by the codec when fed the given chunks in
order followed by finish, or the first fatal error. -/
def codecOutputs (c : Codec σ E) : σ → List Chunk → Except E (List Chunk)
  | st, [] => c.finish st
  | st, ch :: rest =>
    match c.encode st ch with
    | .error e => .error e
    | .ok (st', outs) =>
      match codecOutputs c st' rest with
      | .error e => .error e
      | .ok more => .ok (outs ++ more)

/-- Modelled from the spec: the codec round-trip contract (spec section 8)
for an encoder/decoder codec pair with fresh states, standing in for the
external brotli algorithm, which is out of scope and treated as opaque.
Encoding never fails, and decoding any re-chunking of the encoded byte
stream succeeds and reconstructs exactly the original bytes. -/
def RoundTrip (enc : Codec σ₁ E) (dec : Codec σ₂ E) (st₁ : σ₁) (st₂ : σ₂) : Prop :=
  (∀ ins : List Chunk, ∃ outs, codecOutputs enc st₁ ins = .ok outs) ∧
  (∀ (ins decIn outsE : List Chunk), codecOutputs enc st₁ ins = .ok outsE →
    decIn.flatten = outsE.flatten →
    ∃ outsD, codecOutputs dec st₂ decIn = .ok outsD ∧ outsD.flatten = ins.flatten)

/-- Compression parameters, modelling brotli2::CompressParams (an external
collaborator of the wrapper): window size, block size, mode and quality,
created with the brotli defaults. -/
structure CompressParams where
  mode : Nat
  quality : Nat
  lgwin : Nat
  lgblock : Nat
deriving DecidableEq, Repr

/-- Fresh parameters with the brotli default configuration. -/
def CompressParams.new : CompressParams :=
  { mode := 0, quality := 11, lgwin := 22, lgblock := 0 }

/-- The quality setter of CompressParams: stores the given level, with no
validation or clamping. -/
def CompressParams.setQuality (p : CompressParams) (q : Nat) : CompressParams :=
  { p with quality := q }

/-- Modelled from the spec: the brotli codec instance configuration
(crate::codec::BrotliEncoder, not among the given sources): a fresh stateful
instance built from the parameters, no input/output performed. -/
structure codec.BrotliEncoder where
  params : CompressParams
deriving DecidableEq, Repr

/-- Modelled from the spec: building a fresh codec instance from parameters. -/
def codec.BrotliEncoder.new (params : CompressParams) : codec.BrotliEncoder :=
  { params := params }

/-- Modelled from the spec: the generic stream adapter as the composition it
owns (spec sections 3 and 4.3): exclusive ownership of the inner sequence and
of the codec instance. -/
structure generic.Encoder (S C : Type) where
  stream : S
  codec : C
deriving DecidableEq, Repr

/-- Modelled from the spec: constructing the generic adapter from an inner
sequence and a codec instance. -/
def generic.Encoder.new (stream : S) (codec : C) : generic.Encoder S C :=
  { stream := stream, codec := codec }

/-- Modelled from the spec: shared peek at the wrapped inner sequence. -/
def generic.Encoder.get_ref (e : generic.Encoder S C) : S := e.stream

/-- Modelled from the spec: exclusive peek at the wrapped inner sequence. -/
def generic.Encoder.get_mut (e : generic.Encoder S C) : S := e.stream

/-- Modelled from the spec: pinned exclusive peek at the wrapped inner
sequence. -/
def generic.Encoder.get_pin_mut (e : generic.Encoder S C) : S := e.stream

/-- Modelled from the spec: consuming unwrap returning the inner sequence,
forfeiting any buffered codec state. -/
def generic.Encoder.into_inner (e : generic.Encoder S C) : S := e.stream

/-- Modelled from the spec: one poll of the generic adapter at the dynamic
state, given the codec behaviour. -/
def generic.Encoder.poll_next (c : Codec σ E) (s : AdapterState E σ) :
    List Event × AdapterState E σ × PollResult E :=
  pollNextEv c s

/-- The brotli encoder wrapper (encoder.rs lines 19-22): it holds exactly a
generic encoder over the inner stream and a brotli codec instance. -/
structure stream.BrotliEncoder (S : Type) where
  inner : generic.Encoder S codec.BrotliEncoder
deriving DecidableEq, Repr

/-- from_params (encoder.rs lines 36-43): compose the generic encoder with a
brotli codec built from the given parameters. -/
def stream.BrotliEncoder.from_params (s : S) (params : CompressParams) :
    stream.BrotliEncoder S :=
  { inner := generic.Encoder.new s (codec.BrotliEncoder.new params) }

/-- new (encoder.rs lines 29-33): build fresh parameters, set their quality
to the given level, and defer to from_params. -/
def stream.BrotliEncoder.new (s : S) (level : Nat) : stream.BrotliEncoder S :=
  stream.BrotliEncoder.from_params s (CompressParams.new.setQuality level)

/-- get_ref (encoder.rs lines 46-48): delegation to the generic encoder. -/
def stream.BrotliEncoder.get_ref (e : stream.BrotliEncoder S) : S :=
  e.inner.get_ref

/-- get_mut (encoder.rs lines 54-56): delegation to the generic encoder. -/
def stream.BrotliEncoder.get_mut (e : stream.BrotliEncoder S) : S :=
  e.inner.get_mut

/-- get_pin_mut (encoder.rs lines 62-64): delegation to the generic
encoder. -/
def stream.BrotliEncoder.get_pin_mut (e : stream.BrotliEncoder S) : S :=
  e.inner.get_pin_mut

/-- into_inner (encoder.rs lines 70-72): delegation to the generic encoder. -/
def stream.BrotliEncoder.into_inner (e : stream.BrotliEncoder S) : S :=
  e.inner.into_inner

/-- poll_next (encoder.rs lines 78-80): pure delegation of each poll to the
generic encoder, with the dynamic state made explicit. -/
def stream.BrotliEncoder.poll_next (c : Codec σ E) (s : AdapterState E σ) :
    List Event × AdapterState E σ × PollResult E :=
  generic.Encoder.poll_next c s

/-- How many codec finish invocations may still happen from a given adapter
state: one before the machine reaches Flushing or Done, none after. -/
def finishBudget : AdapterState E σ → Nat
  | .reading _ _ => 1
  | .encoding _ _ _ => 1
  | .flushing _ => 0
  | .done => 0

/-- Whether a poll result is an error. -/
def isError : PollResult E → Bool
  | .error _ => true
  | _ => false

/-- The identity codec: every input chunk is emitted unchanged and finish
emits nothing; a minimal concrete codec used to exercise the theorems. -/
def idCodec : Codec Unit Unit :=
  { encode := fun _ ch => .ok ((), [ch]), finish := fun _ => .ok [] }

/-- A codec whose encode operation emits two output chunks for any input
chunk; used to exercise the one-chunk-per-pull discipline. -/
def twoChunkCodec : Codec Unit Unit :=
  { encode := fun _ _ => .ok ((), [[7], [8]]), finish := fun _ => .ok [] }

/-! ## Step equations for the pull iteration -/

theorem pullResults_succ (c : Codec σ E) (n : Nat) (s : AdapterState E σ) :
    pullResults c (n + 1) s
      = (pollNextEv c s).2.2 :: pullResults c n (pollNextEv c s).2.1 := by
  rcases h : pollNextEv c s with ⟨evs, s', r⟩
  simp [pullResults, h]

theorem pullEvents_succ (c : Codec σ E) (n : Nat) (s : AdapterState E σ) :
    pullEvents c (n + 1) s
      = (pollNextEv c s).1 ++ pullEvents c n (pollNextEv c s).2.1 := by
  rcases h : pollNextEv c s with ⟨evs, s', r⟩
  simp [pullEvents, h]

/-! ## Basic facts about the terminal states -/

theorem pullResults_done (c : Codec σ E) :
    ∀ n, pullResults c n (.done : AdapterState E σ) = List.replicate n .endOfStream := by
  intro n
  induction n with
  | zero => rfl
  | succ n ih => simp [pullResults, pollNextEv, ih, List.replicate]

theorem pullEvents_done (c : Codec σ E) :
    ∀ n, pullEvents c n (.done : AdapterState E σ) = [] := by
  intro n
  induction n with
  | zero => rfl
  | succ n ih => simp [pullEvents, pollNextEv, ih]

theorem pullEvents_flushing (c : Codec σ E) :
    ∀ n (p : List Chunk), pullEvents c n (.flushing p : AdapterState E σ) = [] := by
  intro n
  induction n with
  | zero => intro p; rfl
  | succ n ih =>
    intro p
    cases p with
    | nil => simp [pullEvents, pollNextEv, pullEvents_done]
    | cons o rest => simp [pullEvents, pollNextEv, ih]

theorem pullResults_flushing (c : Codec σ E) :
    ∀ (p : List Chunk), pullResults c (p.length + 1) (.flushing p : AdapterState E σ)
      = p.map .chunk ++ [.endOfStream] := by
  intro p
  induction p with
  | nil => simp [pullResults_succ, pollNextEv, pullResults_done]
  | cons o rest ih =>
    rw [List.length_cons, pullResults_succ]
    rw [show pollNextEv c (.flushing (o :: rest) : AdapterState E σ)
        = ([], .flushing rest, .chunk o) from rfl]
    simp [ih]

/-! ## The shape of one poll that reads the inner sequence -/

theorem readLoop_shape (c : Codec σ E) :
    ∀ (inner : List (Except E Chunk)) (st : σ),
      ((∃ e, (readLoop c inner st).2.2 = .error e) ∧ (readLoop c inner st).2.1 = .done
          ∧ (readLoop c inner st).1.count .finishCall ≤ 1)
    ∨ ((readLoop c inner st).2.2 = .endOfStream ∧ (readLoop c inner st).2.1 = .done
          ∧ (readLoop c inner st).1.count .finishCall = 1)
    ∨ (∃ o, (readLoop c inner st).2.2 = .chunk o
          ∧ ((∃ p, (readLoop c inner st).2.1 = .flushing p
                ∧ (readLoop c inner st).1.count .finishCall = 1)
           ∨ (∃ l st' p, (readLoop c inner st).2.1 = .encoding l st' p
                ∧ (readLoop c inner st).1.count .finishCall = 0))) := by
  intro inner
  induction inner with
  | nil =>
    intro st
    cases hfin : c.finish st with
    | error e =>
      left
      refine ⟨⟨e, ?_⟩, ?_, ?_⟩ <;> simp [readLoop, hfin]
    | ok outs =>
      cases hfil : outs.filter (fun o => !o.isEmpty) with
      | nil =>
        right; left
        refine ⟨?_, ?_, ?_⟩ <;> simp [readLoop, hfin, hfil]
      | cons o rest =>
        right; right
        refine ⟨o, ?_, Or.inl ⟨rest, ?_, ?_⟩⟩ <;> simp [readLoop, hfin, hfil]
  | cons item rest ih =>
    intro st
    cases item with
    | error e =>
      left
      refine ⟨⟨e, ?_⟩, ?_, ?_⟩ <;> simp [readLoop]
    | ok ch =>
      cases henc : c.encode st ch with
      | error e =>
        left
        refine ⟨⟨e, ?_⟩, ?_, ?_⟩ <;> simp [readLoop, henc]
      | ok pair =>
        rcases pair with ⟨st', outs⟩
        cases hfil : outs.filter (fun o => !o.isEmpty) with
        | nil =>
          have hred : readLoop c (.ok ch :: rest) st
              = (.pullInner :: .encodeCall :: (readLoop c rest st').1,
                 (readLoop c rest st').2) := by
            rcases hrl : readLoop c rest st' with ⟨evs, s, r⟩
            simp [readLoop, henc, hfil, hrl]
          have hcount : (readLoop c (.ok ch :: rest) st).1.count Event.finishCall
              = (readLoop c rest st').1.count Event.finishCall := by
            rw [hred]; simp [List.count_cons]
          rcases ih st' with h | h | h
          · left
            exact ⟨⟨h.1.choose, by rw [hred]; exact h.1.choose_spec⟩,
                   by rw [hred]; exact h.2.1, by rw [hcount]; exact h.2.2⟩
          · right; left
            exact ⟨by rw [hred]; exact h.1, by rw [hred]; exact h.2.1,
                   by rw [hcount]; exact h.2.2⟩
          · right; right
            rcases h with ⟨o, ho, h | h⟩
            · exact ⟨o, by rw [hred]; exact ho,
                     Or.inl ⟨h.choose, by rw [hred]; exact h.choose_spec.1,
                             by rw [hcount]; exact h.choose_spec.2⟩⟩
            · rcases h with ⟨l, st'', p, hs, hc⟩
              exact ⟨o, by rw [hred]; exact ho,
                     Or.inr ⟨l, st'', p, by rw [hred]; exact hs,
                             by rw [hcount]; exact hc⟩⟩
        | cons o restOut =>
          right; right
          refine ⟨o, ?_, Or.inr ⟨rest, st', restOut, ?_, ?_⟩⟩ <;>
            simp [readLoop, henc, hfil]

theorem readLoop_end_done (c : Codec σ E) (inner : List (Except E Chunk)) (st : σ)
    (h : (readLoop c inner st).2.2 = .endOfStream) : (readLoop c inner st).2.1 = .done := by
  rcases readLoop_shape c inner st with ⟨_, hd, _⟩ | ⟨_, hd, _⟩ | ⟨o, ho, _⟩
  · exact hd
  · exact hd
  · rw [ho] at h; cases h

theorem readLoop_error_done (c : Codec σ E) (inner : List (Except E Chunk)) (st : σ) (e : E)
    (h : (readLoop c inner st).2.2 = .error e) : (readLoop c inner st).2.1 = .done := by
  rcases readLoop_shape c inner st with ⟨_, hd, _⟩ | ⟨hend, hd, _⟩ | ⟨o, ho, _⟩
  · exact hd
  · exact hd
  · rw [ho] at h; cases h

theorem pollNextEv_reading (c : Codec σ E) (inner : List (Except E Chunk)) (st : σ) :
    pollNextEv c (.reading inner st) = readLoop c inner st := rfl

theorem pollNextEv_encoding_nil (c : Codec σ E) (inner : List (Except E Chunk)) (st : σ) :
    pollNextEv c (.encoding inner st []) = readLoop c inner st := rfl

theorem pollNextEv_end_done (c : Codec σ E) (s : AdapterState E σ)
    (h : (pollNextEv c s).2.2 = .endOfStream) : (pollNextEv c s).2.1 = .done := by
  cases s with
  | done => rfl
  | flushing p =>
    cases p with
    | nil => rfl
    | cons o rest => cases h
  | encoding inner st p =>
    cases p with
    | nil => exact readLoop_end_done c inner st h
    | cons o rest => cases h
  | reading inner st => exact readLoop_end_done c inner st h

theorem pollNextEv_error_done (c : Codec σ E) (s : AdapterState E σ) (e : E)
    (h : (pollNextEv c s).2.2 = .error e) : (pollNextEv c s).2.1 = .done := by
  cases s with
  | done => cases h
  | flushing p =>
    cases p with
    | nil => cases h
    | cons o rest => cases h
  | encoding inner st p =>
    cases p with
    | nil => exact readLoop_error_done c inner st e h
    | cons o rest => cases h
  | reading inner st => exact readLoop_error_done c inner st e h

/-! ## Draining pending output one chunk per pull -/

theorem pullResults_encoding_nil (c : Codec σ E) (inner : List (Except E Chunk)) (st : σ)
    (n : Nat) :
    pullResults c n (.encoding inner st []) = pullResults c n (.reading inner st) := by
  cases n with
  | zero => rfl
  | succ n => rw [pullResults_succ, pullResults_succ, pollNextEv_encoding_nil,
      pollNextEv_reading]

theorem pullResults_encoding_append (c : Codec σ E) (inner : List (Except E Chunk)) (st : σ) :
    ∀ (pending : List Chunk) (n : Nat),
      pullResults c (pending.length + n) (.encoding inner st pending)
        = pending.map .chunk ++ pullResults c n (.reading inner st) := by
  intro pending
  induction pending with
  | nil => intro n; simpa using pullResults_encoding_nil c inner st n
  | cons o rest ih =>
    intro n
    have hn : (o :: rest).length + n = (rest.length + n) + 1 := by
      simp; omega
    rw [hn, pullResults_succ]
    rw [show pollNextEv c (.encoding inner st (o :: rest))
        = ([], .encoding inner st rest, .chunk o) from rfl]
    simp [ih]

theorem pullResults_reading_skip (c : Codec σ E) (ch : Chunk)
    (l : List (Except E Chunk)) (st st' : σ) (outs : List Chunk)
    (h1 : c.encode st ch = .ok (st', outs))
    (h2 : outs.filter (fun o => !o.isEmpty) = []) (k : Nat) :
    pullResults c k (.reading (.ok ch :: l) st) = pullResults c k (.reading l st') := by
  cases k with
  | zero => rfl
  | succ k =>
    have hred : readLoop c (.ok ch :: l) st
        = (.pullInner :: .encodeCall :: (readLoop c l st').1, (readLoop c l st').2) := by
      rcases hrl : readLoop c l st' with ⟨evs, s, r⟩
      simp [readLoop, h1, h2, hrl]
    rw [pullResults_succ, pullResults_succ, pollNextEv_reading, pollNextEv_reading, hred]

/-! ## The adapter yields exactly the non-empty codec outputs, then ends -/

theorem adapter_outputs (c : Codec σ E) :
    ∀ (inner : List Chunk) (st : σ) (outs : List Chunk),
      codecOutputs c st inner = .ok outs →
      pullResults c ((outs.filter (fun o => !o.isEmpty)).length + 1)
          (.reading (inner.map .ok) st)
        = (outs.filter (fun o => !o.isEmpty)).map .chunk ++ [.endOfStream] := by
  intro inner
  induction inner with
  | nil =>
    intro st outs h
    have hfin : c.finish st = .ok outs := h
    cases hfil : outs.filter (fun o => !o.isEmpty) with
    | nil =>
      have h1 : pollNextEv c (.reading (([] : List Chunk).map .ok) st)
          = ([.pullInner, .finishCall], .done, .endOfStream) := by
        simp [pollNextEv, readLoop, hfin, hfil]
      rw [pullResults_succ, h1]
      simp [pullResults_done]
    | cons o rest =>
      have h1 : pollNextEv c (.reading (([] : List Chunk).map .ok) st)
          = ([.pullInner, .finishCall], .flushing rest, .chunk o) := by
        simp [pollNextEv, readLoop, hfin, hfil]
      rw [pullResults_succ, h1]
      simp [pullResults_flushing]
  | cons ch rest ih =>
    intro st outs h
    cases henc : c.encode st ch with
    | error e => simp [codecOutputs, henc] at h
    | ok pair =>
      rcases pair with ⟨st', outs1⟩
      cases hrec : codecOutputs c st' rest with
      | error e => simp [codecOutputs, henc, hrec] at h
      | ok more =>
        have houts : outs = outs1 ++ more := by
          simp [codecOutputs, henc, hrec] at h
          exact h.symm
        subst houts
        rw [List.filter_append]
        cases hfil1 : outs1.filter (fun o => !o.isEmpty) with
        | nil =>
          simp only [hfil1, List.nil_append, List.map_cons]
          rw [pullResults_reading_skip c ch (rest.map .ok) st st' outs1 henc hfil1]
          exact ih st' more hrec
        | cons o restOut =>
          simp only [hfil1, List.map_cons]
          have hrl : readLoop c (.ok ch :: rest.map .ok) st
              = ([.pullInner, .encodeCall],
                 .encoding (rest.map .ok) st' restOut, .chunk o) := by
            simp [readLoop, henc, hfil1]
          have hn : ((o :: restOut) ++ more.filter (fun o => !o.isEmpty)).length + 1
              = (restOut.length + ((more.filter (fun o => !o.isEmpty)).length + 1)) + 1 := by
            simp [List.length_append]
            omega
          rw [hn, pullResults_succ, pollNextEv_reading, hrl]
          simp only []
          rw [pullResults_encoding_append c (rest.map .ok) st' restOut]
          rw [ih st' more hrec]
          simp

theorem flatten_filter_nonEmpty :
    ∀ (l : List Chunk), (l.filter (fun o => !o.isEmpty)).flatten = l.flatten := by
  intro l
  induction l with
  | nil => rfl
  | cons o rest ih =>
    cases o with
    | nil => simpa [List.filter] using ih
    | cons a as => simp [List.filter, ih]

/-! ## Counting finish invocations and errors across a run -/

theorem pullEvents_finish_le (c : Codec σ E) :
    ∀ (n : Nat) (s : AdapterState E σ),
      (pullEvents c n s).count .finishCall ≤ finishBudget s := by
  intro n
  induction n with
  | zero => intro s; simp [pullEvents]
  | succ n ih =>
    intro s
    rw [pullEvents_succ, List.count_append]
    cases s with
    | done =>
      rw [show pollNextEv c (.done : AdapterState E σ)
          = ([], .done, .endOfStream) from rfl]
      simpa using ih (.done : AdapterState E σ)
    | flushing p =>
      cases p with
      | nil =>
        rw [show pollNextEv c (.flushing [] : AdapterState E σ)
            = ([], .done, .endOfStream) from rfl]
        simpa using ih (.done : AdapterState E σ)
      | cons o rest =>
        rw [show pollNextEv c (.flushing (o :: rest) : AdapterState E σ)
            = ([], .flushing rest, .chunk o) from rfl]
        simpa using ih (.flushing rest : AdapterState E σ)
    | encoding inner st p =>
      cases p with
      | nil =>
        rw [pollNextEv_encoding_nil]
        rcases readLoop_shape c inner st with ⟨_, hd, hcnt⟩ | ⟨_, hd, hcnt⟩ |
          ⟨o, _, ⟨q, hd, hcnt⟩ | ⟨l, st'', q, hd, hcnt⟩⟩
        · rw [hd]
          simp [pullEvents_done, finishBudget]
          omega
        · rw [hd, hcnt]
          simp [pullEvents_done, finishBudget]
        · rw [hd, hcnt]
          simp [pullEvents_flushing, finishBudget]
        · rw [hd, hcnt]
          have := ih (.encoding l st'' q)
          simp only [finishBudget] at this ⊢
          omega
      | cons o rest =>
        rw [show pollNextEv c (.encoding inner st (o :: rest))
            = ([], .encoding inner st rest, .chunk o) from rfl]
        simpa using ih (.encoding inner st rest)
    | reading inner st =>
      rw [pollNextEv_reading]
      rcases readLoop_shape c inner st with ⟨_, hd, hcnt⟩ | ⟨_, hd, hcnt⟩ |
        ⟨o, _, ⟨q, hd, hcnt⟩ | ⟨l, st'', q, hd, hcnt⟩⟩
      · rw [hd]
        simp [pullEvents_done, finishBudget]
        omega
      · rw [hd, hcnt]
        simp [pullEvents_done, finishBudget]
      · rw [hd, hcnt]
        simp [pullEvents_flushing, finishBudget]
      · rw [hd, hcnt]
        have := ih (.encoding l st'' q)
        simp only [finishBudget] at this ⊢
        omega

@[simp] theorem isError_chunk (ch : Chunk) :
    isError (PollResult.chunk ch : PollResult E) = false := rfl

@[simp] theorem isError_error (e : E) : isError (PollResult.error e) = true := rfl

@[simp] theorem isError_end : isError (PollResult.endOfStream : PollResult E) = false := rfl

theorem pullResults_done_noError (c : Codec σ E) (n : Nat) :
    (pullResults c n (.done : AdapterState E σ)).countP (fun r => isError r) = 0 := by
  rw [pullResults_done]
  rw [List.countP_eq_zero]
  intro r hr
  rw [List.eq_of_mem_replicate hr]
  simp

theorem pullResults_flushing_noError (c : Codec σ E) :
    ∀ (n : Nat) (p : List Chunk),
      (pullResults c n (.flushing p : AdapterState E σ)).countP (fun r => isError r) = 0 := by
  intro n
  induction n with
  | zero => intro p; simp [pullResults]
  | succ n ih =>
    intro p
    cases p with
    | nil =>
      rw [pullResults_succ,
        show pollNextEv c (.flushing [] : AdapterState E σ)
          = ([], .done, .endOfStream) from rfl]
      simp [List.countP_cons, pullResults_done_noError]
    | cons o rest =>
      rw [pullResults_succ,
        show pollNextEv c (.flushing (o :: rest) : AdapterState E σ)
          = ([], .flushing rest, .chunk o) from rfl]
      simp [List.countP_cons, ih]

theorem pullResults_error_le (c : Codec σ E) :
    ∀ (n : Nat) (s : AdapterState E σ),
      (pullResults c n s).countP (fun r => isError r) ≤ finishBudget s := by
  intro n
  induction n with
  | zero => intro s; simp [pullResults]
  | succ n ih =>
    intro s
    rw [pullResults_succ, List.countP_cons]
    cases s with
    | done =>
      rw [show pollNextEv c (.done : AdapterState E σ)
          = ([], .done, .endOfStream) from rfl]
      simp [pullResults_done_noError, finishBudget]
    | flushing p =>
      cases p with
      | nil =>
        rw [show pollNextEv c (.flushing [] : AdapterState E σ)
            = ([], .done, .endOfStream) from rfl]
        simp [pullResults_done_noError, finishBudget]
      | cons o rest =>
        rw [show pollNextEv c (.flushing (o :: rest) : AdapterState E σ)
            = ([], .flushing rest, .chunk o) from rfl]
        simp [pullResults_flushing_noError, finishBudget]
    | encoding inner st p =>
      cases p with
      | nil =>
        rw [pollNextEv_encoding_nil]
        rcases readLoop_shape c inner st with ⟨⟨e, hr⟩, hd, _⟩ | ⟨hr, hd, _⟩ |
          ⟨o, hr, ⟨q, hd, _⟩ | ⟨l, st'', q, hd, _⟩⟩
        · rw [hd, hr]
          simp [pullResults_done_noError, finishBudget]
        · rw [hd, hr]
          simp [pullResults_done_noError, finishBudget]
        · rw [hd, hr]
          simp [pullResults_flushing_noError, finishBudget]
        · rw [hd, hr]
          have := ih (.encoding l st'' q)
          simp only [finishBudget] at this ⊢
          simp
          omega
      | cons o rest =>
        rw [show pollNextEv c (.encoding inner st (o :: rest))
            = ([], .encoding inner st rest, .chunk o) from rfl]
        have := ih (.encoding inner st rest)
        simp only [finishBudget] at this ⊢
        simp
        omega
    | reading inner st =>
      rw [pollNextEv_reading]
      rcases readLoop_shape c inner st with ⟨⟨e, hr⟩, hd, _⟩ | ⟨hr, hd, _⟩ |
        ⟨o, hr, ⟨q, hd, _⟩ | ⟨l, st'', q, hd, _⟩⟩
      · rw [hd, hr]
        simp [pullResults_done_noError, finishBudget]
      · rw [hd, hr]
        simp [pullResults_done_noError, finishBudget]
      · rw [hd, hr]
        simp [pullResults_flushing_noError, finishBudget]
      · rw [hd, hr]
        have := ih (.encoding l st'' q)
        simp only [finishBudget] at this ⊢
        simp
        omega

theorem pullEvents_finish_exact (c : Codec σ E) :
    ∀ (n : Nat) (s : AdapterState E σ),
      PollResult.endOfStream ∈ pullResults c n s →
      (∀ e, PollResult.error e ∉ pullResults c n s) →
      (pullEvents c n s).count .finishCall = finishBudget s := by
  intro n
  induction n with
  | zero => intro s hend _; simp [pullResults] at hend
  | succ n ih =>
    intro s hend herr
    rw [pullResults_succ] at hend herr
    rw [pullEvents_succ, List.count_append]
    cases s with
    | done =>
      rw [show pollNextEv c (.done : AdapterState E σ)
          = ([], .done, .endOfStream) from rfl]
      simp [pullEvents_done, finishBudget]
    | flushing p =>
      cases p with
      | nil =>
        rw [show pollNextEv c (.flushing [] : AdapterState E σ)
            = ([], .done, .endOfStream) from rfl]
        simp [pullEvents_done, finishBudget]
      | cons o rest =>
        rw [show pollNextEv c (.flushing (o :: rest) : AdapterState E σ)
            = ([], .flushing rest, .chunk o) from rfl]
        simp [pullEvents_flushing, finishBudget]
    | encoding inner st p =>
      cases p with
      | nil =>
        rw [pollNextEv_encoding_nil]
        rcases readLoop_shape c inner st with ⟨⟨e, hr⟩, hd, _⟩ | ⟨hr, hd, hcnt⟩ |
          ⟨o, hr, ⟨q, hd, hcnt⟩ | ⟨l, st'', q, hd, hcnt⟩⟩
        · exfalso
          apply herr e
          rw [pollNextEv_encoding_nil, hr]
          exact List.mem_cons_self _ _
        · rw [hd, hcnt]
          simp [pullEvents_done, finishBudget]
        · rw [hd, hcnt]
          simp [pullEvents_flushing, finishBudget]
        · rw [hd, hcnt]
          rw [pollNextEv_encoding_nil, hr, hd] at hend herr
          have hend' : PollResult.endOfStream ∈ pullResults c n (.encoding l st'' q) := by
            rcases List.mem_cons.mp hend with h | h
            · cases h
            · exact h
          have herr' : ∀ e, PollResult.error e ∉ pullResults c n (.encoding l st'' q) := by
            intro e he
            exact herr e (List.mem_cons_of_mem _ he)
          have := ih (.encoding l st'' q) hend' herr'
          simp only [finishBudget] at this ⊢
          omega
      | cons o rest =>
        rw [show pollNextEv c (.encoding inner st (o :: rest))
            = ([], .encoding inner st rest, .chunk o) from rfl] at hend herr ⊢
        have hend' : PollResult.endOfStream ∈ pullResults c n (.encoding inner st rest) := by
          rcases List.mem_cons.mp hend with h | h
          · cases h
          · exact h
        have herr' : ∀ e, PollResult.error e ∉ pullResults c n (.encoding inner st rest) := by
          intro e he
          exact herr e (List.mem_cons_of_mem _ he)
        have := ih (.encoding inner st rest) hend' herr'
        simp only [finishBudget] at this ⊢
        simpa using this
    | reading inner st =>
      rw [pollNextEv_reading]
      rcases readLoop_shape c inner st with ⟨⟨e, hr⟩, hd, _⟩ | ⟨hr, hd, hcnt⟩ |
        ⟨o, hr, ⟨q, hd, hcnt⟩ | ⟨l, st'', q, hd, hcnt⟩⟩
      · exfalso
        apply herr e
        rw [pollNextEv_reading, hr]
        exact List.mem_cons_self _ _
      · rw [hd, hcnt]
        simp [pullEvents_done, finishBudget]
      · rw [hd, hcnt]
        simp [pullEvents_flushing, finishBudget]
      · rw [hd, hcnt]
        rw [pollNextEv_reading, hr, hd] at hend herr
        have hend' : PollResult.endOfStream ∈ pullResults c n (.encoding l st'' q) := by
          rcases List.mem_cons.mp hend with h | h
          · cases h
          · exact h
        have herr' : ∀ e, PollResult.error e ∉ pullResults c n (.encoding l st'' q) := by
          intro e he
          exact herr e (List.mem_cons_of_mem _ he)
        have := ih (.encoding l st'' q) hend' herr'
        simp only [finishBudget] at this ⊢
        omega

/-! ## The identity codec satisfies the round-trip contract -/

theorem codecOutputs_idCodec : ∀ (l : List Chunk), codecOutputs idCodec () l = .ok l := by
  intro l
  induction l with
  | nil => rfl
  | cons ch rest ih =>
    have he : idCodec.encode () ch = Except.ok ((), [ch]) := rfl
    simp [codecOutputs, he, ih]

theorem idCodec_roundTrip : RoundTrip idCodec idCodec () () := by
  constructor
  · intro ins
    exact ⟨ins, codecOutputs_idCodec ins⟩
  · intro ins decIn outsE h1 h2
    refine ⟨decIn, codecOutputs_idCodec decIn, ?_⟩
    rw [codecOutputs_idCodec ins] at h1
    have h3 : ins = outsE := by injection h1
    subst h3
    exact h2

/-! ## The claims -/

/-- Claim C1: for every sequence of input chunks, including the empty one,
compressing the sequence through the encoder adapter and feeding every
output chunk it yields into the decoder adapter reproduces, as the
concatenation of all decoder output chunks, exactly the concatenation of
the inputs, regardless of how chunk boundaries were split or merged. -/
theorem c1_round_trip_fidelity (enc : Codec σ₁ E) (dec : Codec σ₂ E)
    (st₁ : σ₁) (st₂ : σ₂) (h : RoundTrip enc dec st₁ st₂) (inputs : List Chunk) :
    ∃ (nE nD : Nat) (encChunks decChunks : List Chunk),
      pullResults enc nE (.reading (inputs.map .ok) st₁)
        = encChunks.map .chunk ++ [.endOfStream]
      ∧ pullResults dec nD (.reading (encChunks.map .ok) st₂)
        = decChunks.map .chunk ++ [.endOfStream]
      ∧ decChunks.flatten = inputs.flatten := by
  obtain ⟨outsE, hE⟩ := h.1 inputs
  obtain ⟨outsD, hD, hflat⟩ := h.2 inputs (outsE.filter (fun o => !o.isEmpty)) outsE hE
    (flatten_filter_nonEmpty outsE)
  refine ⟨(outsE.filter (fun o => !o.isEmpty)).length + 1,
          (outsD.filter (fun o => !o.isEmpty)).length + 1,
          outsE.filter (fun o => !o.isEmpty),
          outsD.filter (fun o => !o.isEmpty), ?_, ?_, ?_⟩
  · exact adapter_outputs enc inputs st₁ outsE hE
  · exact adapter_outputs dec (outsE.filter (fun o => !o.isEmpty)) st₂ outsD hD
  · rw [flatten_filter_nonEmpty outsD, hflat]

theorem c1_round_trip_fidelity_witness :
    RoundTrip idCodec idCodec () ()
    ∧ ∃ (nE nD : Nat) (encChunks decChunks : List Chunk),
        pullResults idCodec nE
            (.reading (([[1, 2], [], [3]] : List Chunk).map .ok) ())
          = encChunks.map .chunk ++ [.endOfStream]
        ∧ pullResults idCodec nD (.reading (encChunks.map .ok) ())
          = decChunks.map .chunk ++ [.endOfStream]
        ∧ decChunks.flatten = ([[1, 2], [], [3]] : List Chunk).flatten :=
  ⟨idCodec_roundTrip,
   c1_round_trip_fidelity idCodec idCodec () () idCodec_roundTrip [[1, 2], [], [3]]⟩

/-- Claim C2: when the wrapped inner sequence is empty and the codec flushes
no trailing output, every pull of the adapter yields end-of-sequence and
nothing else: no output chunk and no error is ever yielded. -/
theorem c2_empty_input_ends_immediately (c : Codec σ E) (st : σ)
    (hfin : c.finish st = .ok []) :
    ∀ n, pullResults c n (.reading [] st) = List.replicate n .endOfStream := by
  intro n
  cases n with
  | zero => rfl
  | succ n =>
    have h1 : pollNextEv c (.reading ([] : List (Except E Chunk)) st)
        = ([.pullInner, .finishCall], .done, .endOfStream) := by
      simp [pollNextEv, readLoop, hfin]
    rw [pullResults_succ, h1]
    simp [pullResults_done, List.replicate_succ]

theorem c2_empty_input_ends_immediately_witness :
    idCodec.finish () = .ok []
    ∧ pullResults idCodec 3 (.reading [] ()) = List.replicate 3 .endOfStream :=
  ⟨rfl, c2_empty_input_ends_immediately idCodec () rfl 3⟩

/-- Claim C3: once a pull yields the end-of-sequence signal, the adapter is
Done, and every further pull yields end-of-sequence again, for any number of
further pulls. -/
theorem c3_end_idempotent (c : Codec σ E) (s : AdapterState E σ)
    (h : (pollNextEv c s).2.2 = .endOfStream) :
    ∀ n, pullResults c n (pollNextEv c s).2.1 = List.replicate n .endOfStream := by
  intro n
  rw [pollNextEv_end_done c s h]
  exact pullResults_done c n

theorem c3_end_idempotent_witness :
    (pollNextEv idCodec (.reading [] ())).2.2 = .endOfStream
    ∧ pullResults idCodec 3 (pollNextEv idCodec (.reading [] ())).2.1
        = List.replicate 3 .endOfStream :=
  ⟨rfl, c3_end_idempotent idCodec (.reading [] ()) rfl 3⟩

/-- Claim C4: in every run of the adapter the codec finish operation is
invoked at most once; in every error-free run that reaches end-of-sequence
it is invoked exactly once, after the inner sequence ends and before the
adapter ends; and once a pull has yielded the terminal signal, later pulls
produce no collaborator events at all: the inner sequence is never pulled
again and the codec is never invoked again. -/
theorem c4_finish_exactly_once (c : Codec σ E) :
    (∀ (n : Nat) (inner : List (Except E Chunk)) (st : σ),
        (pullEvents c n (.reading inner st)).count .finishCall ≤ 1)
  ∧ (∀ (n : Nat) (inner : List (Except E Chunk)) (st : σ),
        PollResult.endOfStream ∈ pullResults c n (.reading inner st) →
        (∀ e, PollResult.error e ∉ pullResults c n (.reading inner st)) →
        (pullEvents c n (.reading inner st)).count .finishCall = 1)
  ∧ (∀ (s : AdapterState E σ), (pollNextEv c s).2.2 = .endOfStream →
        ∀ n, pullEvents c n (pollNextEv c s).2.1 = []) := by
  refine ⟨?_, ?_, ?_⟩
  · intro n inner st
    simpa [finishBudget] using pullEvents_finish_le c n (.reading inner st)
  · intro n inner st hend herr
    simpa [finishBudget] using pullEvents_finish_exact c n (.reading inner st) hend herr
  · intro s h n
    rw [pollNextEv_end_done c s h]
    exact pullEvents_done c n

theorem c4_finish_exactly_once_witness :
    (PollResult.endOfStream ∈ pullResults idCodec 3 (.reading [Except.ok [1]] ())
      ∧ (∀ e : Unit, PollResult.error e ∉ pullResults idCodec 3 (.reading [Except.ok [1]] ()))
      ∧ (pullEvents idCodec 3 (.reading [Except.ok [1]] ())).count .finishCall = 1)
    ∧ ((pollNextEv idCodec (.reading ([] : List (Except Unit Chunk)) ())).2.2 = .endOfStream
      ∧ pullEvents idCodec 2
          (pollNextEv idCodec (.reading ([] : List (Except Unit Chunk)) ())).2.1 = []) := by
  refine ⟨⟨?_, ?_, ?_⟩, ?_, ?_⟩
  · decide
  · decide
  · exact (c4_finish_exactly_once idCodec).2.1 3 _ () (by decide) (by decide)
  · rfl
  · exact (c4_finish_exactly_once idCodec).2.2 (.reading [] ()) rfl 2

/-- Claim C5: an error is yielded exactly once, at the pull where it
occurred: the pull yielding it leaves the adapter Done, so the next pull and
all further pulls yield end-of-sequence, never that error again, and any run
of the adapter yields at most one error result in total. -/
theorem c5_error_exactly_once (c : Codec σ E) :
    (∀ (s : AdapterState E σ) (e : E), (pollNextEv c s).2.2 = .error e →
        ∀ n, pullResults c n (pollNextEv c s).2.1 = List.replicate n .endOfStream)
  ∧ (∀ (n : Nat) (inner : List (Except E Chunk)) (st : σ),
        (pullResults c n (.reading inner st)).countP (fun r => isError r) ≤ 1) := by
  constructor
  · intro s e h n
    rw [pollNextEv_error_done c s e h]
    exact pullResults_done c n
  · intro n inner st
    simpa [finishBudget] using pullResults_error_le c n (.reading inner st)

theorem c5_error_exactly_once_witness :
    (pollNextEv idCodec (.reading [Except.error ()] ())).2.2 = PollResult.error ()
    ∧ pullResults idCodec 3 (pollNextEv idCodec (.reading [Except.error ()] ())).2.1
        = List.replicate 3 .endOfStream :=
  ⟨rfl, (c5_error_exactly_once idCodec).1 (.reading [Except.error ()] ()) () rfl 3⟩

/-- Claim C6: the adapter yields at most one output chunk per pull, never a
batch: when one pulled input chunk makes the codec produce several non-empty
output chunks, they are delivered one per pull, in order, across exactly
that many successive pulls. -/
theorem c6_one_chunk_per_pull (c : Codec σ E) (inner : List (Except E Chunk))
    (st st' : σ) (ch : Chunk) (outs : List Chunk)
    (henc : c.encode st ch = .ok (st', outs)) :
    pullResults c (outs.filter (fun o => !o.isEmpty)).length
        (.reading (.ok ch :: inner) st)
      = (outs.filter (fun o => !o.isEmpty)).map .chunk := by
  cases hfil : outs.filter (fun o => !o.isEmpty) with
  | nil => rfl
  | cons o restOut =>
    have hrl : readLoop c (.ok ch :: inner) st
        = ([.pullInner, .encodeCall], .encoding inner st' restOut, .chunk o) := by
      simp [readLoop, henc, hfil]
    rw [List.length_cons, pullResults_succ, pollNextEv_reading, hrl]
    have h2 := pullResults_encoding_append c inner st' restOut 0
    simp only [Nat.add_zero, pullResults, List.append_nil] at h2
    rw [h2]
    simp

theorem c6_one_chunk_per_pull_witness :
    twoChunkCodec.encode () [1] = .ok ((), [[7], [8]])
    ∧ pullResults twoChunkCodec
        (([[7], [8]] : List Chunk).filter (fun o => !o.isEmpty)).length
        (.reading [Except.ok [1]] ())
      = (([[7], [8]] : List Chunk).filter (fun o => !o.isEmpty)).map .chunk :=
  ⟨rfl, c6_one_chunk_per_pull twoChunkCodec [] () () [1] [[7], [8]] rfl⟩

/-- Claim C7: for every stream and level, new(stream, level) constructs
exactly the encoder of from_params(stream, params) where params is a freshly
created CompressParams whose quality has been set to the level. -/
theorem c7_new_from_params_agree (S : Type) (s : S) (level : Nat) :
    stream.BrotliEncoder.new s level
      = stream.BrotliEncoder.from_params s (CompressParams.new.setQuality level) := rfl

/-- Claim C8: the wrapper holds no algorithmic logic: get_ref, get_mut,
get_pin_mut and poll_next each return exactly the result of the identically
named operation of the wrapped generic encoder. -/
theorem c8_pure_delegation :
    (∀ (S : Type) (w : stream.BrotliEncoder S), w.get_ref = w.inner.get_ref)
  ∧ (∀ (S : Type) (w : stream.BrotliEncoder S), w.get_mut = w.inner.get_mut)
  ∧ (∀ (S : Type) (w : stream.BrotliEncoder S), w.get_pin_mut = w.inner.get_pin_mut)
  ∧ (∀ (σ E : Type) (c : Codec σ E) (s : AdapterState E σ),
      stream.BrotliEncoder.poll_next c s = generic.Encoder.poll_next c s) :=
  ⟨fun _ _ => rfl, fun _ _ => rfl, fun _ _ => rfl, fun _ _ _ _ => rfl⟩

/-- Claim C9: into_inner returns the wrapped inner stream, dropping the
codec state; in particular, with no intervening pulls, into_inner of
new(stream, level) is exactly the stream that was passed to new. -/
theorem c9_into_inner_returns_stream :
    (∀ (S : Type) (w : stream.BrotliEncoder S), w.into_inner = w.inner.stream)
  ∧ (∀ (S : Type) (s : S) (level : Nat),
      (stream.BrotliEncoder.new s level).into_inner = s) :=
  ⟨fun _ _ => rfl, fun _ _ _ => rfl⟩

/-- Claim C10: new performs no validation of its u32 level argument: for
every u32 level, including the boundary values 0 and 11 and values outside
the conventional range, construction succeeds and the configured codec
quality is exactly the given level. -/
theorem c10_new_accepts_every_level (S : Type) (s : S) (level : Nat)
    (_hlevel : level < 2 ^ 32) :
    (stream.BrotliEncoder.new s level).inner.codec.params.quality = level := rfl

theorem c10_new_accepts_every_level_witness :
    ((0 : Nat) < 2 ^ 32
      ∧ (stream.BrotliEncoder.new () 0).inner.codec.params.quality = 0)
    ∧ ((11 : Nat) < 2 ^ 32
      ∧ (stream.BrotliEncoder.new () 11).inner.codec.params.quality = 11)
    ∧ ((4000000000 : Nat) < 2 ^ 32
      ∧ (stream.BrotliEncoder.new () 4000000000).inner.codec.params.quality
          = 4000000000) :=
  ⟨⟨by norm_num, c10_new_accepts_every_level Unit () 0 (by norm_num)⟩,
   ⟨by norm_num, c10_new_accepts_every_level Unit () 11 (by norm_num)⟩,
   ⟨by norm_num, c10_new_accepts_every_level Unit () 4000000000 (by norm_num)⟩⟩
